import Mathlib

/-!
Shallow embedding of the STM engine of the Financial-Systems repository.

The repository holds several variants of the same transactional-memory core:

* `Financial_transactions.cpp` — the MVCC variant: a versioned store
  (`versionedData : map<unsigned, vector<pair<unsigned,double>>>`), a global
  commit clock, transactions with a read set and a write buffer, a priority
  scheduler, and a worker retry loop (`maxAttempts = 10`).  Embedded in
  namespace `FinSys` (scheduler parts in `Sched`).
* `STM.cpp` — the per-cell modification-count variant with a bounded retry
  wrapper (`maxAttempts = 3`).  Embedded in namespace `STM`.
* `advanced.cpp` — the version-counter variant whose execution task retries
  without bound (`while (!success)`).  Embedded in namespace `Adv`.

Account balances are C++ `double` in the sources; the engine never computes
with them (it only stores and returns them), so the scalar is modelled as
`Int`.  Machine counters (`unsigned` clock, modification counts) are modelled
as `Nat`; their 2^32 wrap-around is not relevant to any statement below.
C++ `std::map`s are modelled as association lists with lookup and
insert-or-replace; claims proved here do not depend on key iteration order.
-/

namespace FinVerify

/-- Association-list lookup, modelling `std::map::find`. -/
def lookupA {α : Type} : List (Nat × α) → Nat → Option α
  | [], _ => none
  | (k, v) :: rest, k' => if k = k' then some v else lookupA rest k'

/-- Association-list insert-or-replace, modelling assignment through
`std::map::operator[]`. -/
def insertA {α : Type} : List (Nat × α) → Nat → α → List (Nat × α)
  | [], k, v => [(k, v)]
  | (k0, v0) :: rest, k, v =>
    if k0 = k then (k, v) :: rest else (k0, v0) :: insertA rest k v


namespace FinSys

/-- One committed version of an account: `(commit timestamp, balance)`,
the `pair<unsigned, double>` of `Financial_transactions.cpp`. -/
abbrev Version := Nat × Int

/-- The shared state of `FinancialTransactionSystem`: the versioned store and
the global commit clock. -/
structure FinState where
  versionedData : List (Nat × List Version)
  globalClock : Nat
deriving Repr, DecidableEq

/-- The per-attempt context of `FinancialTransactionSystem::Transaction`:
read set `accountId → (observed value, observed version timestamp)`,
write buffer `accountId → new balance`, and the start timestamp captured at
construction. -/
structure FinTx where
  readSet : List (Nat × (Int × Nat))
  writeSet : List (Nat × Int)
  startTimestamp : Nat
deriving Repr, DecidableEq

/-- The two exceptions `readBalance` can throw:
`out_of_range("Account not found")` and
`runtime_error("No valid version found ...")`. -/
inductive ReadErr
  | accountNotFound
  | noValidVersion
deriving Repr, DecidableEq

/-- Model of `Transaction(system)`: empty read set and write buffer,
`startTimestamp = globalClock.load()`. -/
def mkTx (s : FinState) : FinTx := ⟨[], [], s.globalClock⟩

/-- The `lower_bound` over the reversed version vector in `readBalance`:
the first element, scanning from the newest version backwards, whose
timestamp is `≤ ts`. -/
def findNewestLE (versions : List Version) (ts : Nat) : Option Version :=
  versions.reverse.find? (fun p => p.1 ≤ ts)

/-- Model of `Transaction::readBalance`: write buffer first (read-your-own-writes),
otherwise the newest store version with timestamp `≤ startTimestamp`, which is
also recorded in the read set. -/
def readBalance (s : FinState) (tx : FinTx) (accountId : Nat) :
    Except ReadErr (Int × FinTx) :=
  match lookupA tx.writeSet accountId with
  | some v => .ok (v, tx)
  | none =>
    match lookupA s.versionedData accountId with
    | none => .error .accountNotFound
    | some versions =>
      match findNewestLE versions tx.startTimestamp with
      | none => .error .noValidVersion
      | some pv =>
        .ok (pv.2, { tx with readSet := insertA tx.readSet accountId (pv.2, pv.1) })

/-- Model of `Transaction::updateBalance`: overwrite or insert into the write buffer. -/
def updateBalance (tx : FinTx) (accountId : Nat) (newBalance : Int) : FinTx :=
  { tx with writeSet := insertA tx.writeSet accountId newBalance }

/-- Lookup of `versionedData[accountId]` in the validation loop of `commit`:
it uses `operator[]`, which inserts an empty version vector when the key is absent. -/
def ensureKey (vd : List (Nat × List Version)) (k : Nat) :
    List (Nat × List Version) :=
  match lookupA vd k with
  | some _ => vd
  | none => insertA vd k []

/-- The per-entry conflict test of `Transaction::commit`: `lower_bound` for the
first version with timestamp `≥ endTs`, step back to the last version with
timestamp `< endTs` (if the iterator is not at `begin`), and report a conflict
when its timestamp exceeds the recorded read version. -/
def conflictOn (versions : List Version) (endTs readVersion : Nat) : Bool :=
  match versions.reverse.find? (fun p => p.1 < endTs) with
  | none => false
  | some p => readVersion < p.1

/-- The read-set validation loop of `Transaction::commit`.  The store is
threaded through because `versionedData[accountId]` may insert an empty cell
for an absent key; the loop stops at the first conflict. -/
def validateReads (endTs : Nat) :
    List (Nat × List Version) → List (Nat × (Int × Nat)) →
      Bool × List (Nat × List Version)
  | vd, [] => (true, vd)
  | vd, (accountId, rv) :: rest =>
    let vd1 := ensureKey vd accountId
    if conflictOn ((lookupA vd1 accountId).getD []) endTs rv.2 then (false, vd1)
    else validateReads endTs vd1 rest

/-- Model of `versionedData[accountId].emplace_back(ts, v)`. -/
def appendVersion (vd : List (Nat × List Version)) (k : Nat) (ts : Nat) (v : Int) :
    List (Nat × List Version) :=
  insertA vd k (((lookupA vd k).getD []) ++ [(ts, v)])

/-- Model of `FinancialTransactionSystem::createAccount`: unconditionally
`versionedData[accountId].emplace_back(0, initialBalance)`. -/
def createAccount (s : FinState) (accountId : Nat) (initialBalance : Int) : FinState :=
  { s with versionedData := appendVersion s.versionedData accountId 0 initialBalance }

/-- Model of `Transaction::commit`: take the gate, allocate
`endTimestamp = ++globalClock`, validate the read set, and on success append
`(endTimestamp, newBalance)` for every write-buffer entry. -/
def commit (s : FinState) (tx : FinTx) : Bool × FinState :=
  let endTs := s.globalClock + 1
  let r := validateReads endTs s.versionedData tx.readSet
  if r.1 then
    let vd2 := tx.writeSet.foldl (fun acc e => appendVersion acc e.1 endTs e.2) r.2
    (true, { versionedData := vd2, globalClock := endTs })
  else
    (false, { versionedData := r.2, globalClock := endTs })

/-- One iteration of the worker retry loop in `workerFunction`: run the
closure (`catch` turns a thrown exception into `success = false` without
calling `commit`), otherwise commit. -/
def attempt (s : FinState) (logic : FinState → FinTx → Except Unit FinTx) :
    Bool × FinState :=
  match logic s (mkTx s) with
  | .error _ => (false, s)
  | .ok tx => commit s tx

/-- Outcome of a worker retry loop: did it succeed, the resulting shared
state, and how many times the closure was run. -/
structure RunResult where
  success : Bool
  state : FinState
  runs : Nat
deriving Repr, DecidableEq

/-- The retry loop of `workerFunction`
(`while (!success && attempts < maxAttempts)`, with `maxAttempts = 10` at the
call site): each failed attempt — thrown closure or conflicting commit —
consumes one unit of budget. -/
def runAttempts (logic : FinState → FinTx → Except Unit FinTx) :
    Nat → FinState → RunResult
  | 0, s => ⟨false, s, 0⟩
  | n + 1, s =>
    match attempt s logic with
    | (true, s1) => ⟨true, s1, 1⟩
    | (false, s1) =>
      let r := runAttempts logic n s1
      ⟨r.success, r.state, r.runs + 1⟩

/-- Every timestamp stored anywhere in the versioned map is at most `c`. -/
abbrev maxTsLE (vd : List (Nat × List Version)) (c : Nat) : Prop :=
  ∀ e ∈ vd, ∀ p ∈ e.2, p.1 ≤ c

/-- Spec invariant I1: within a cell, timestamps strictly increase. -/
abbrev strictAsc (l : List Version) : Prop :=
  l.Pairwise (fun p q => p.1 < q.1)

/-- Every cell of the versioned map is strictly ascending. -/
abbrev cellsAsc (vd : List (Nat × List Version)) : Prop :=
  ∀ e ∈ vd, strictAsc e.2

/-- The store invariant the MVCC engine maintains: strictly ascending cells
and no stored timestamp above the global clock. -/
abbrev StoreInv (s : FinState) : Prop :=
  cellsAsc s.versionedData ∧ maxTsLE s.versionedData s.globalClock

end FinSys

namespace STM

/-- Model of `TransactionalMemorySystem::DataCell` of `STM.cpp`: a scalar plus a
modification counter. -/
structure DataCell where
  content : Int
  modificationCount : Nat
deriving Repr, DecidableEq

/-- The `dataStore` map of `STM.cpp`. -/
abbrev MemStore := List (Nat × DataCell)

/-- Model of `MemoryTransaction`: read log `location → observed modification count`
and write buffer `location → value`. -/
structure MemTx where
  readLog : List (Nat × Nat)
  writeBuffer : List (Nat × Int)
deriving Repr, DecidableEq

/-- Model of `MemoryTransaction::fetch`: write buffer first, otherwise read the cell's
current content afresh and (re)record its modification count in the read
log; throws `out_of_range` when the location is not initialized. -/
def fetch (ds : MemStore) (tx : MemTx) (location : Nat) :
    Except Unit (Int × MemTx) :=
  match lookupA tx.writeBuffer location with
  | some v => .ok (v, tx)
  | none =>
    match lookupA ds location with
    | none => .error ()
    | some cell =>
      .ok (cell.content,
        { tx with readLog := insertA tx.readLog location cell.modificationCount })

/-- Model of `MemoryTransaction::store`. -/
def storeVal (tx : MemTx) (location : Nat) (value : Int) : MemTx :=
  { tx with writeBuffer := insertA tx.writeBuffer location value }

/-- The validation loop of `MemoryTransaction::finalizeTransaction`: every
read-log entry must still name an existing cell with an unchanged
modification count. -/
def validateLog (ds : MemStore) (tx : MemTx) : Bool :=
  tx.readLog.all (fun e =>
    match lookupA ds e.1 with
    | none => false
    | some cell => cell.modificationCount == e.2)

/-- One write-buffer publication step of `finalizeTransaction`: emplace a new
cell for an absent location, otherwise overwrite the content and increment
the modification count. -/
def applyWrite (ds : MemStore) (loc : Nat) (newValue : Int) : MemStore :=
  match lookupA ds loc with
  | none => ds ++ [(loc, ⟨newValue, 0⟩)]
  | some cell => insertA ds loc ⟨newValue, cell.modificationCount + 1⟩

/-- Model of `MemoryTransaction::finalizeTransaction`: validate the whole read log
first; only on success publish the write buffer. -/
def finalizeTransaction (ds : MemStore) (tx : MemTx) : Bool × MemStore :=
  if validateLog ds tx then
    (true, tx.writeBuffer.foldl (fun acc e => applyWrite acc e.1 e.2) ds)
  else
    (false, ds)

/-- Model of `TransactionalMemorySystem::initializeMemory`:
`dataStore.emplace(location, value)` — a silent no-op when the location
already exists. -/
def initializeMemory (ds : MemStore) (location : Nat) (value : Int) : MemStore :=
  match lookupA ds location with
  | some _ => ds
  | none => ds ++ [(location, ⟨value, 0⟩)]

/-- The two ways `TransactionalMemorySystem::executeTransaction` can fail:
an exception thrown by the closure (not caught there, so it propagates at
once) and `runtime_error("Transaction failed after multiple attempts")`. -/
inductive ExecErr
  | domainError
  | retryExceeded
deriving Repr, DecidableEq

/-- Outcome of the bounded retry wrapper of `STM.cpp`, together with the
number of times the closure was run. -/
structure ExecResult where
  outcome : Except ExecErr MemStore
  runs : Nat
deriving Repr

/-- Model of `TransactionalMemorySystem::executeTransaction`
(`for (int attempts = 0; attempts < 3; ++attempts)`, budget 3 at the call
site): a fresh transaction per attempt; a thrown closure propagates
immediately; exhaustion throws. -/
def executeTransaction (logic : MemStore → Except Unit MemTx) :
    Nat → MemStore → ExecResult
  | 0, _ => ⟨.error .retryExceeded, 0⟩
  | n + 1, ds =>
    match logic ds with
    | .error _ => ⟨.error .domainError, 1⟩
    | .ok tx =>
      match finalizeTransaction ds tx with
      | (true, ds1) => ⟨.ok ds1, 1⟩
      | (false, ds1) =>
        let r := executeTransaction logic n ds1
        ⟨r.outcome, r.runs + 1⟩

end STM

namespace Adv

/-- Model of `AdvancedTransactionalMemorySystem::DataCell` of `advanced.cpp`: a scalar
plus a version counter. -/
structure DataCell where
  content : Int
  version : Nat
deriving Repr, DecidableEq

/-- The `dataStore` map of `advanced.cpp`. -/
abbrev AdvStore := List (Nat × DataCell)

/-- Model of `AdvancedTransactionalMemorySystem::Transaction`: read set
`location → (observed value, observed version)` and write set. -/
structure AdvTx where
  readSet : List (Nat × (Int × Nat))
  writeSet : List (Nat × Int)
deriving Repr, DecidableEq

/-- Model of `Transaction::read`: write set first, otherwise read the cell's current
content afresh and (re)record `(value, version)` in the read set. -/
def read (ds : AdvStore) (tx : AdvTx) (location : Nat) :
    Except Unit (Int × AdvTx) :=
  match lookupA tx.writeSet location with
  | some v => .ok (v, tx)
  | none =>
    match lookupA ds location with
    | none => .error ()
    | some cell =>
      .ok (cell.content,
        { tx with readSet := insertA tx.readSet location (cell.content, cell.version) })

/-- Model of `Transaction::write`. -/
def write (tx : AdvTx) (location : Nat) (value : Int) : AdvTx :=
  { tx with writeSet := insertA tx.writeSet location value }

/-- Model of `Transaction::commit`: every read-set entry must still name an existing
cell with an unchanged version; on success the write set is published,
emplacing absent cells and bumping versions of existing ones. -/
def commit (ds : AdvStore) (tx : AdvTx) : Bool × AdvStore :=
  if tx.readSet.all (fun e =>
      match lookupA ds e.1 with
      | none => false
      | some cell => cell.version == e.2.2) then
    (true, tx.writeSet.foldl (fun acc e =>
      match lookupA acc e.1 with
      | none => acc ++ [(e.1, ⟨e.2, 0⟩)]
      | some cell => insertA acc e.1 ⟨e.2, cell.version + 1⟩) ds)
  else
    (false, ds)

/-- The task body of `AdvancedTransactionalMemorySystem::executeTransaction`:
`while (!success) { Transaction tx; logic(tx); success = tx.commit(); }` —
an unbounded retry loop, rendered with explicit fuel.  `interfere` models the
commits other workers may publish between the closure's reads and this
transaction's commit; the result is `none` when the fuel runs out with the
loop still spinning, together with the number of closure runs so far. -/
def execTask (logic : AdvStore → AdvTx) (interfere : AdvStore → AdvStore) :
    Nat → AdvStore → Option AdvStore × Nat
  | 0, _ => (none, 0)
  | n + 1, ds =>
    let tx := logic ds
    let ds1 := interfere ds
    match commit ds1 tx with
    | (true, ds2) => (some ds2, 1)
    | (false, ds2) =>
      let r := execTask logic interfere n ds2
      (r.1, r.2 + 1)

/-- The increment closure of the `advanced.cpp` benchmark, restricted to one
cell: `int v = tx.read(100); tx.write(100, v + 1);`. -/
def incLogic (ds : AdvStore) : AdvTx :=
  match read ds ⟨[], []⟩ 100 with
  | .ok (v, tx) => write tx 100 (v + 1)
  | .error _ => ⟨[], []⟩

/-- An interfering worker that commits its own increment of cell 100 between
this transaction's reads and its commit — the adversarial-conflict schedule. -/
def bumpCell (ds : AdvStore) : AdvStore :=
  (commit ds (incLogic ds)).2

end Adv

namespace Sched

/-- A queued `TransactionInfo` of `Financial_transactions.cpp`: priority (a
signed integer), the `steady_clock` enqueue time (modelled as a `Nat` tick),
and an abstract payload standing for the closure and description. -/
structure TransactionInfo where
  priority : Int
  startTime : Nat
  label : Nat
deriving Repr, DecidableEq

/-- Model of `CompareTransactionInfo::operator()`: `lhs` is ordered below `rhs` when it
has lower priority, or equal priority and a later enqueue time.
`std::priority_queue` pops the greatest element of this order. -/
def compareTI (lhs rhs : TransactionInfo) : Bool :=
  if lhs.priority ≠ rhs.priority then decide (lhs.priority < rhs.priority)
  else decide (lhs.startTime > rhs.startTime)

/-- The element `std::priority_queue::top` yields: a maximum of the queue's
contents under `compareTI` (the first such element, fixing the tie-break the
heap leaves unspecified among equivalent entries). -/
def pickBest (t : TransactionInfo) (ts : List TransactionInfo) : TransactionInfo :=
  ts.foldl (fun b x => if compareTI b x then x else b) t
/-- One pop round of draining the priority queue, with explicit fuel: yield a
maximal remaining descriptor under `compareTI` and remove it. -/
def dequeueFuel : Nat → List TransactionInfo → List TransactionInfo
  | 0, _ => []
  | _ + 1, [] => []
  | n + 1, t :: ts =>
    pickBest t ts :: dequeueFuel n ((t :: ts).erase (pickBest t ts))

/-- The order in which the worker pool dispatches a queue of descriptors:
repeatedly pop the top of the priority queue until it is empty.  Each pop
removes exactly one descriptor, so `q.length` rounds drain the queue. -/
def dequeueAll (q : List TransactionInfo) : List TransactionInfo :=
  dequeueFuel q.length q

end Sched

/-! ## Helper lemmas -/

theorem lookupA_insertA_self {α : Type} (m : List (Nat × α)) (k : Nat) (v : α) :
    lookupA (insertA m k v) k = some v := by
  induction m with
  | nil => simp [insertA, lookupA]
  | cons hd tl ih =>
    obtain ⟨k0, v0⟩ := hd
    by_cases h : k0 = k
    · simp [insertA, h, lookupA]
    · simp [insertA, h, lookupA, ih]

theorem lookupA_insertA_ne {α : Type} (m : List (Nat × α)) (k k' : Nat) (v : α)
    (h : k ≠ k') : lookupA (insertA m k v) k' = lookupA m k' := by
  induction m with
  | nil => simp [insertA, lookupA, h]
  | cons hd tl ih =>
    obtain ⟨k0, v0⟩ := hd
    by_cases h0 : k0 = k
    · subst h0
      simp [insertA, lookupA, h]
    · simp [insertA, h0, lookupA, ih]

theorem insertA_idem {α : Type} (m : List (Nat × α)) (k : Nat) (v : α) :
    insertA (insertA m k v) k v = insertA m k v := by
  induction m with
  | nil => simp [insertA]
  | cons hd tl ih =>
    obtain ⟨k0, v0⟩ := hd
    by_cases h : k0 = k
    · simp [insertA, h]
    · simp [insertA, h, ih]

theorem mem_insertA {α : Type} {m : List (Nat × α)} {k : Nat} {v : α}
    {e : Nat × α} (h : e ∈ insertA m k v) : e = (k, v) ∨ e ∈ m := by
  induction m with
  | nil => simpa [insertA] using h
  | cons hd tl ih =>
    obtain ⟨k0, v0⟩ := hd
    by_cases h0 : k0 = k
    · rw [insertA, if_pos h0] at h
      rcases List.mem_cons.mp h with h1 | h1
      · exact Or.inl h1
      · exact Or.inr (List.mem_cons_of_mem _ h1)
    · rw [insertA, if_neg h0] at h
      rcases List.mem_cons.mp h with h1 | h1
      · exact Or.inr (by simp [h1])
      · rcases ih h1 with h2 | h2
        · exact Or.inl h2
        · exact Or.inr (List.mem_cons_of_mem _ h2)

namespace Sched

theorem compareTI_eq_true_iff (a b : TransactionInfo) :
    compareTI a b = true ↔
      (a.priority < b.priority ∨
        (a.priority = b.priority ∧ b.startTime < a.startTime)) := by
  unfold compareTI
  by_cases h : a.priority = b.priority
  · simp [h]
  · simp [h]

theorem compareTI_eq_false_iff (a b : TransactionInfo) :
    compareTI a b = false ↔
      (b.priority < a.priority ∨
        (a.priority = b.priority ∧ a.startTime ≤ b.startTime)) := by
  rw [← Bool.not_eq_true, compareTI_eq_true_iff]
  constructor
  · intro h
    omega
  · intro h
    omega

theorem compareTI_irrefl (a : TransactionInfo) : compareTI a a = false := by
  rw [compareTI_eq_false_iff]
  omega

theorem compareTI_chain1 {b y m : TransactionInfo} (h1 : compareTI b y = true)
    (h2 : compareTI m y = false) : compareTI m b = false := by
  rw [compareTI_eq_true_iff] at h1
  rw [compareTI_eq_false_iff] at h2 ⊢
  omega

theorem compareTI_chain2 {t y m : TransactionInfo} (h1 : compareTI t y = false)
    (h2 : compareTI m t = false) : compareTI m y = false := by
  rw [compareTI_eq_false_iff] at h1 h2 ⊢
  omega

theorem pickBest_mem (t : TransactionInfo) (ts : List TransactionInfo) :
    pickBest t ts ∈ t :: ts := by
  induction ts generalizing t with
  | nil => simp [pickBest]
  | cons y ys ih =>
    have h := ih (if compareTI t y then y else t)
    simp only [pickBest, List.foldl_cons] at h ⊢
    rcases List.mem_cons.mp h with h1 | h1
    · rw [h1]
      split
      · simp
      · simp
    · simp [List.mem_cons, h1]

theorem pickBest_spec (t : TransactionInfo) (ts : List TransactionInfo) :
    ∀ x ∈ t :: ts, compareTI (pickBest t ts) x = false := by
  induction ts generalizing t with
  | nil =>
    intro x hx
    rw [List.mem_singleton.mp hx]
    simpa [pickBest] using compareTI_irrefl t
  | cons y ys ih =>
    intro x hx
    have hpb : pickBest t (y :: ys) = pickBest (if compareTI t y then y else t) ys := by
      simp [pickBest]
    rcases List.mem_cons.mp hx with h1 | h1
    · -- x = t
      subst h1
      rw [hpb]
      by_cases hc : compareTI x y = true
      · rw [if_pos hc]
        exact compareTI_chain1 hc (ih y y (by simp))
      · rw [if_neg hc]
        exact ih x x (by simp)
    rcases List.mem_cons.mp h1 with h2 | h2
    · -- x = y
      subst h2
      rw [hpb]
      by_cases hc : compareTI t x = true
      · rw [if_pos hc]
        exact ih x x (by simp)
      · rw [if_neg hc]
        exact compareTI_chain2 (Bool.eq_false_iff.mpr hc) (ih t t (by simp))
    · -- x ∈ ys
      rw [hpb]
      split
      · exact ih y x (by simp [h2])
      · exact ih t x (by simp [h2])

theorem dequeueFuel_sub (n : Nat) :
    ∀ (q : List TransactionInfo), ∀ x ∈ dequeueFuel n q, x ∈ q := by
  induction n with
  | zero =>
    intro q x hx
    simp [dequeueFuel] at hx
  | succ n ih =>
    intro q x hx
    match q with
    | [] => simp [dequeueFuel] at hx
    | t :: ts =>
      simp only [dequeueFuel] at hx
      rcases List.mem_cons.mp hx with h1 | h1
      · rw [h1]
        exact pickBest_mem t ts
      · exact List.mem_of_mem_erase (ih _ x h1)

theorem dequeueFuel_pairwise (n : Nat) :
    ∀ (q : List TransactionInfo),
      (dequeueFuel n q).Pairwise (fun a b => compareTI a b = false) := by
  induction n with
  | zero =>
    intro q
    simp [dequeueFuel]
  | succ n ih =>
    intro q
    match q with
    | [] => simp [dequeueFuel]
    | t :: ts =>
      simp only [dequeueFuel]
      refine List.Pairwise.cons ?_ (ih _)
      intro y hy
      exact pickBest_spec t ts y
        (List.mem_of_mem_erase (dequeueFuel_sub n _ y hy))

theorem dequeueAll_pairwise (q : List TransactionInfo) :
    (dequeueAll q).Pairwise (fun a b => compareTI a b = false) :=
  dequeueFuel_pairwise q.length q

end Sched

theorem lookupA_mem {α : Type} {m : List (Nat × α)} {k : Nat} {v : α}
    (h : lookupA m k = some v) : (k, v) ∈ m := by
  induction m with
  | nil => simp [lookupA] at h
  | cons hd tl ih =>
    obtain ⟨k0, v0⟩ := hd
    by_cases h0 : k0 = k
    · rw [lookupA, if_pos h0] at h
      subst h0
      simp [Option.some.inj h]
    · rw [lookupA, if_neg h0] at h
      exact List.mem_cons_of_mem _ (ih h)

theorem find?_append_none {α : Type} (p : α → Bool) (l1 l2 : List α)
    (h : ∀ x ∈ l1, p x = false) : (l1 ++ l2).find? p = l2.find? p := by
  induction l1 with
  | nil => simp
  | cons x rest ih =>
    rw [List.cons_append, List.find?_cons_of_neg _ (by simp [h x (by simp)])]
    exact ih (fun y hy => h y (by simp [hy]))

namespace FinSys

theorem ensureKey_of_some {vd : List (Nat × List Version)} {k : Nat}
    (h : (lookupA vd k).isSome) : ensureKey vd k = vd := by
  unfold ensureKey
  cases h2 : lookupA vd k with
  | some cell => rfl
  | none => rw [h2] at h; simp at h

theorem lookupA_ensureKey {vd : List (Nat × List Version)} {k a : Nat}
    {cell : List Version} (h : lookupA vd k = some cell) :
    lookupA (ensureKey vd a) k = some cell := by
  unfold ensureKey
  cases h2 : lookupA vd a with
  | some c => exact h
  | none =>
    by_cases hk : a = k
    · rw [hk, h] at h2
      cases h2
    · rw [lookupA_insertA_ne _ _ _ _ hk]
      exact h

theorem validateReads_lookup {endTs : Nat} :
    ∀ (rs : List (Nat × (Int × Nat))) (vd : List (Nat × List Version))
      (k : Nat) (cell : List Version), lookupA vd k = some cell →
      lookupA (validateReads endTs vd rs).2 k = some cell := by
  intro rs
  induction rs with
  | nil => intro vd k cell h; exact h
  | cons e rest ih =>
    intro vd k cell h
    obtain ⟨accountId, rv⟩ := e
    rw [validateReads]
    split
    · exact lookupA_ensureKey h
    · exact ih _ k cell (lookupA_ensureKey h)

theorem validateReads_id {endTs : Nat} :
    ∀ (rs : List (Nat × (Int × Nat))) (vd : List (Nat × List Version)),
      (∀ e ∈ rs, (lookupA vd e.1).isSome) →
      (validateReads endTs vd rs).2 = vd := by
  intro rs
  induction rs with
  | nil => intro vd _; rfl
  | cons e rest ih =>
    intro vd h
    obtain ⟨accountId, rv⟩ := e
    have he : ensureKey vd accountId = vd :=
      ensureKey_of_some (h (accountId, rv) (by simp))
    rw [validateReads]
    split
    · exact he
    · rw [he]
      exact ih vd (fun e2 h2 => h (e2) (by simp [h2]))

theorem lookupA_appendVersion_self (vd : List (Nat × List Version))
    (k ts : Nat) (v : Int) :
    lookupA (appendVersion vd k ts v) k
      = some (((lookupA vd k).getD []) ++ [(ts, v)]) := by
  unfold appendVersion
  exact lookupA_insertA_self _ _ _

theorem lookupA_appendVersion_ne (vd : List (Nat × List Version))
    (k k2 ts : Nat) (v : Int) (h : k ≠ k2) :
    lookupA (appendVersion vd k ts v) k2 = lookupA vd k2 := by
  unfold appendVersion
  exact lookupA_insertA_ne _ _ _ _ h

theorem foldl_appendVersion_exists (ts : Nat) :
    ∀ (ws : List (Nat × Int)) (acc : List (Nat × List Version)) (k : Nat)
      (cell : List Version), lookupA acc k = some cell →
      ∃ extra, lookupA
          (ws.foldl (fun a e => appendVersion a e.1 ts e.2) acc) k
            = some (cell ++ extra) ∧ ∀ p ∈ extra, p.1 = ts := by
  intro ws
  induction ws with
  | nil =>
    intro acc k cell h
    exact ⟨[], by simpa using h, by simp⟩
  | cons e rest ih =>
    intro acc k cell h
    simp only [List.foldl_cons]
    by_cases hk : e.1 = k
    · have h1 : lookupA (appendVersion acc e.1 ts e.2) k
          = some (cell ++ [(ts, e.2)]) := by
        rw [← hk] at h ⊢
        rw [lookupA_appendVersion_self, h]
        rfl
      obtain ⟨extra, h2, h3⟩ := ih _ k (cell ++ [(ts, e.2)]) h1
      refine ⟨(ts, e.2) :: extra, by simpa using h2, ?_⟩
      intro p hp
      rcases List.mem_cons.mp hp with h4 | h4
      · rw [h4]
      · exact h3 p h4
    · have h1 : lookupA (appendVersion acc e.1 ts e.2) k = some cell := by
        rw [lookupA_appendVersion_ne _ _ _ _ _ hk]
        exact h
      exact ih _ k cell h1

theorem foldl_appendVersion_written (ts : Nat) :
    ∀ (ws : List (Nat × Int)) (acc : List (Nat × List Version))
      (kv : Nat × Int), kv ∈ ws →
      ∃ cell, lookupA
          (ws.foldl (fun a e => appendVersion a e.1 ts e.2) acc) kv.1
            = some cell ∧ ∃ p ∈ cell, p.1 = ts := by
  intro ws
  induction ws with
  | nil => intro acc kv h; simp at h
  | cons e rest ih =>
    intro acc kv h
    simp only [List.foldl_cons]
    rcases List.mem_cons.mp h with h1 | h1
    · subst h1
      have h2 := lookupA_appendVersion_self acc kv.1 ts kv.2
      obtain ⟨extra, h3, _⟩ := foldl_appendVersion_exists ts rest _ kv.1 _ h2
      refine ⟨_, h3, (ts, kv.2), ?_, rfl⟩
      simp
    · exact ih _ kv h1

theorem maxTsLE_mono {vd : List (Nat × List Version)} {c c2 : Nat}
    (h : maxTsLE vd c) (hc : c ≤ c2) : maxTsLE vd c2 :=
  fun e he p hp => le_trans (h e he p hp) hc

theorem maxTsLE_lookupD {vd : List (Nat × List Version)} {c : Nat}
    (h : maxTsLE vd c) (k : Nat) :
    ∀ p ∈ (lookupA vd k).getD [], p.1 ≤ c := by
  intro p hp
  cases h2 : lookupA vd k with
  | none => rw [h2] at hp; simp at hp
  | some cell =>
    rw [h2] at hp
    exact h (k, cell) (lookupA_mem h2) p hp

theorem maxTsLE_insertA {vd : List (Nat × List Version)} {c : Nat}
    {k : Nat} {cell : List Version} (h : maxTsLE vd c)
    (hc : ∀ p ∈ cell, p.1 ≤ c) : maxTsLE (insertA vd k cell) c := by
  intro e he
  rcases mem_insertA he with h1 | h1
  · rw [h1]
    exact hc
  · exact h e h1

theorem maxTsLE_ensureKey {vd : List (Nat × List Version)} {c : Nat}
    (h : maxTsLE vd c) (k : Nat) : maxTsLE (ensureKey vd k) c := by
  unfold ensureKey
  cases lookupA vd k with
  | some cell => exact h
  | none => exact maxTsLE_insertA h (by simp)

theorem maxTsLE_validateReads {endTs c : Nat} :
    ∀ (rs : List (Nat × (Int × Nat))) (vd : List (Nat × List Version)),
      maxTsLE vd c → maxTsLE (validateReads endTs vd rs).2 c := by
  intro rs
  induction rs with
  | nil => intro vd h; exact h
  | cons e rest ih =>
    intro vd h
    obtain ⟨accountId, rv⟩ := e
    rw [validateReads]
    split
    · exact maxTsLE_ensureKey h accountId
    · exact ih _ (maxTsLE_ensureKey h accountId)

theorem maxTsLE_appendVersion {vd : List (Nat × List Version)} {c ts : Nat}
    {k : Nat} {v : Int} (h : maxTsLE vd c) (hts : ts ≤ c) :
    maxTsLE (appendVersion vd k ts v) c := by
  unfold appendVersion
  refine maxTsLE_insertA h ?_
  intro p hp
  rcases List.mem_append.mp hp with h1 | h1
  · exact maxTsLE_lookupD h k p h1
  · rw [List.mem_singleton.mp h1]
    exact hts

theorem maxTsLE_foldl_append {c ts : Nat} (hts : ts ≤ c) :
    ∀ (ws : List (Nat × Int)) (acc : List (Nat × List Version)),
      maxTsLE acc c →
      maxTsLE (ws.foldl (fun a e => appendVersion a e.1 ts e.2) acc) c := by
  intro ws
  induction ws with
  | nil => intro acc h; exact h
  | cons e rest ih =>
    intro acc h
    simp only [List.foldl_cons]
    exact ih _ (maxTsLE_appendVersion h hts)

theorem cellsAsc_lookupD {vd : List (Nat × List Version)}
    (h : cellsAsc vd) (k : Nat) : strictAsc ((lookupA vd k).getD []) := by
  cases h2 : lookupA vd k with
  | none => simp [strictAsc]
  | some cell =>
    simpa using h (k, cell) (lookupA_mem h2)

theorem cellsAsc_insertA {vd : List (Nat × List Version)}
    {k : Nat} {cell : List Version} (h : cellsAsc vd)
    (hc : strictAsc cell) : cellsAsc (insertA vd k cell) := by
  intro e he
  rcases mem_insertA he with h1 | h1
  · rw [h1]
    exact hc
  · exact h e h1

theorem cellsAsc_ensureKey {vd : List (Nat × List Version)}
    (h : cellsAsc vd) (k : Nat) : cellsAsc (ensureKey vd k) := by
  unfold ensureKey
  cases lookupA vd k with
  | some cell => exact h
  | none => exact cellsAsc_insertA h (by simp [strictAsc])

theorem cellsAsc_validateReads {endTs : Nat} :
    ∀ (rs : List (Nat × (Int × Nat))) (vd : List (Nat × List Version)),
      cellsAsc vd → cellsAsc (validateReads endTs vd rs).2 := by
  intro rs
  induction rs with
  | nil => intro vd h; exact h
  | cons e rest ih =>
    intro vd h
    obtain ⟨accountId, rv⟩ := e
    rw [validateReads]
    split
    · exact cellsAsc_ensureKey h accountId
    · exact ih _ (cellsAsc_ensureKey h accountId)

theorem cellsAsc_foldl_append {ts : Nat} :
    ∀ (ws : List (Nat × Int)) (vd : List (Nat × List Version)),
      cellsAsc vd →
      (∀ kv ∈ ws, ∀ p ∈ (lookupA vd kv.1).getD [], p.1 < ts) →
      (ws.map Prod.fst).Nodup →
      cellsAsc (ws.foldl (fun a e => appendVersion a e.1 ts e.2) vd) := by
  intro ws
  induction ws with
  | nil => intro vd hA _ _; exact hA
  | cons e rest ih =>
    intro vd hA hTs hnd
    simp only [List.foldl_cons]
    have hnd2 : e.1 ∉ rest.map Prod.fst ∧ (rest.map Prod.fst).Nodup := by
      rw [List.map_cons] at hnd
      exact List.nodup_cons.mp hnd
    apply ih
    · intro c hc
      rcases mem_insertA hc with h1 | h1
      · rw [h1]
        refine List.pairwise_append.mpr
          ⟨cellsAsc_lookupD hA e.1, by simp, ?_⟩
        intro a ha b hb
        rw [List.mem_singleton.mp hb]
        exact hTs e (by simp) a ha
      · exact hA _ h1
    · intro kv hkv p hp
      have hne : e.1 ≠ kv.1 := by
        intro hEq
        exact hnd2.1 (hEq ▸ List.mem_map_of_mem Prod.fst hkv)
      rw [lookupA_appendVersion_ne _ _ _ _ _ hne] at hp
      exact hTs kv (by simp [hkv]) p hp
    · exact hnd2.2

theorem findNewestLE_none {versions : List Version} {ts : Nat}
    (h : findNewestLE versions ts = none) : ∀ p ∈ versions, ts < p.1 := by
  intro p hp
  have h2 := List.find?_eq_none.mp h p (List.mem_reverse.mpr hp)
  simpa using h2

theorem find_desc_max {l : List Version} {ts : Nat} {q : Version}
    (hd : l.Pairwise (fun p r => r.1 < p.1))
    (h : l.find? (fun p => p.1 ≤ ts) = some q) :
    q.1 ≤ ts ∧ ∀ r ∈ l, r.1 ≤ ts → r.1 ≤ q.1 := by
  induction l with
  | nil => simp at h
  | cons x rest ih =>
    by_cases hx : x.1 ≤ ts
    · rw [List.find?_cons_of_pos _ (by simpa using hx)] at h
      obtain rfl := Option.some.inj h
      refine ⟨hx, ?_⟩
      intro r hr _
      rcases List.mem_cons.mp hr with h1 | h1
      · rw [h1]
      · exact le_of_lt ((List.pairwise_cons.mp hd).1 r h1)
    · rw [List.find?_cons_of_neg _ (by simpa using hx)] at h
      have ih2 := ih (List.Pairwise.of_cons hd) h
      refine ⟨ih2.1, ?_⟩
      intro r hr hrle
      rcases List.mem_cons.mp hr with h1 | h1
      · exact absurd (h1 ▸ hrle) hx
      · exact ih2.2 r h1 hrle

theorem findNewestLE_spec {versions : List Version} {ts : Nat} {q : Version}
    (ha : strictAsc versions) (h : findNewestLE versions ts = some q) :
    q ∈ versions ∧ q.1 ≤ ts ∧ ∀ r ∈ versions, r.1 ≤ ts → r.1 ≤ q.1 := by
  have hd : versions.reverse.Pairwise (fun p r => r.1 < p.1) :=
    List.pairwise_reverse.mpr ha
  have h2 := find_desc_max hd h
  refine ⟨List.mem_reverse.mp (List.mem_of_find?_eq_some h), h2.1, ?_⟩
  intro r hr hrle
  exact h2.2 r (List.mem_reverse.mpr hr) hrle

end FinSys

/-! ## Claims -/

/-- Claim C8: the scheduler dequeues transaction descriptors in descending
priority order and, among descriptors of equal priority, in ascending
enqueue-time order (FIFO within a priority class): in the dispatch order
obtained by draining the queue, whenever `a` is dispatched before `b`, either
`a` has strictly higher priority than `b`, or they have equal priority and
`a`'s enqueue time is no later than `b`'s. -/
theorem C8_priority_fifo_dispatch (q : List Sched.TransactionInfo) :
    (Sched.dequeueAll q).Pairwise (fun a b =>
      b.priority < a.priority ∨
        (a.priority = b.priority ∧ a.startTime ≤ b.startTime)) :=
  (Sched.dequeueAll_pairwise q).imp
    (fun h => (Sched.compareTI_eq_false_iff _ _).mp h)

/-- Claim C5, counterexample: with account 1 already present as `[(0, 5)]`,
`createAccount 1 7` neither fails nor leaves the store unchanged — it appends
`(0, 7)` to the existing version sequence (its C++ return type `void` cannot
signal AlreadyInitialized at all). -/
theorem C5_counterexample :
    (FinSys.createAccount ⟨[(1, [(0, 5)])], 0⟩ 1 7).versionedData
        = [(1, [(0, 5), (0, 7)])] ∧
    (FinSys.createAccount ⟨[(1, [(0, 5)])], 0⟩ 1 7).versionedData
        ≠ [(1, [(0, 5)])] := by
  exact ⟨rfl, by decide⟩

/-- Claim C5, amended: neither initializer reports AlreadyInitialized.
`initializeMemory` on an existing key is a silent no-op that leaves the store
unchanged; `createAccount` on an existing key silently appends `(0, value)` to
the existing sequence; on an absent key both create a fresh singleton
sequence `[(0, value)]`. -/
theorem C5_initialize_behavior :
    (∀ (ds : STM.MemStore) (loc : Nat) (v : Int) (cell : STM.DataCell),
        lookupA ds loc = some cell → STM.initializeMemory ds loc v = ds) ∧
    (∀ (ds : STM.MemStore) (loc : Nat) (v : Int),
        lookupA ds loc = none →
          STM.initializeMemory ds loc v = ds ++ [(loc, ⟨v, 0⟩)]) ∧
    (∀ (s : FinSys.FinState) (k : Nat) (b : Int),
        lookupA s.versionedData k = none →
          lookupA (FinSys.createAccount s k b).versionedData k
            = some [(0, b)]) ∧
    (∀ (s : FinSys.FinState) (k : Nat) (b : Int)
        (versions : List FinSys.Version),
        lookupA s.versionedData k = some versions →
          lookupA (FinSys.createAccount s k b).versionedData k
            = some (versions ++ [(0, b)])) := by
  refine ⟨?_, ?_, ?_, ?_⟩
  · intro ds loc v cell h
    unfold STM.initializeMemory
    rw [h]
  · intro ds loc v h
    unfold STM.initializeMemory
    rw [h]
  · intro s k b h
    show lookupA (FinSys.appendVersion s.versionedData k 0 b) k = some [(0, b)]
    rw [FinSys.lookupA_appendVersion_self, h]
    rfl
  · intro s k b versions h
    show lookupA (FinSys.appendVersion s.versionedData k 0 b) k
      = some (versions ++ [(0, b)])
    rw [FinSys.lookupA_appendVersion_self, h]
    rfl

/-- Claim C5, witness: the amended behavior evaluated at concrete stores. -/
theorem C5_witness :
    STM.initializeMemory [(3, ⟨5, 0⟩)] 3 9 = [(3, ⟨5, 0⟩)] ∧
    STM.initializeMemory [(3, ⟨5, 0⟩)] 4 9 = [(3, ⟨5, 0⟩), (4, ⟨9, 0⟩)] ∧
    lookupA (FinSys.createAccount ⟨[(1, [(0, 5)])], 0⟩ 2 9).versionedData 2
      = some [(0, 9)] ∧
    lookupA (FinSys.createAccount ⟨[(1, [(0, 5)])], 0⟩ 1 9).versionedData 1
      = some [(0, 5), (0, 9)] := by
  refine ⟨C5_initialize_behavior.1 _ 3 9 ⟨5, 0⟩ rfl,
    C5_initialize_behavior.2.1 _ 4 9 rfl,
    C5_initialize_behavior.2.2.1 ⟨[(1, [(0, 5)])], 0⟩ 2 9 rfl,
    C5_initialize_behavior.2.2.2 ⟨[(1, [(0, 5)])], 0⟩ 1 9 [(0, 5)] rfl⟩

/-- Claim C9, counterexample: two `createAccount` calls on the same key — a
legal sequence of initialize operations — leave key 1 with the version list
`[(0, 5), (0, 7)]`, which is not strictly ascending, and no panic occurs. -/
theorem C9_counterexample :
    ¬ FinSys.strictAsc
        ((lookupA (FinSys.createAccount
            (FinSys.createAccount ⟨[], 0⟩ 1 5) 1 7).versionedData 1).getD []) := by
  decide

/-- Claim C9, amended: provided `createAccount` is only applied to absent
keys, the engine preserves the store invariant — every cell strictly
ascending in timestamp and no stored timestamp above the global clock — and
`commit` (whose write-set keys are distinct, coming from a `std::map`)
appends only versions stamped strictly above every existing timestamp. -/
theorem C9_version_monotonic (s : FinSys.FinState) (k : Nat) (v : Int)
    (tx : FinSys.FinTx) :
    (lookupA s.versionedData k = none → FinSys.StoreInv s →
        FinSys.StoreInv (FinSys.createAccount s k v)) ∧
    (FinSys.StoreInv s → (tx.writeSet.map Prod.fst).Nodup →
        FinSys.StoreInv (FinSys.commit s tx).2) := by
  constructor
  · intro hnone hInv
    obtain ⟨hA, hM⟩ := hInv
    constructor
    · show FinSys.cellsAsc (FinSys.appendVersion s.versionedData k 0 v)
      unfold FinSys.appendVersion
      apply FinSys.cellsAsc_insertA hA
      rw [hnone]
      simp [FinSys.strictAsc]
    · show FinSys.maxTsLE (FinSys.appendVersion s.versionedData k 0 v)
        s.globalClock
      exact FinSys.maxTsLE_appendVersion hM (Nat.zero_le _)
  · intro hInv hnd
    obtain ⟨hA, hM⟩ := hInv
    have hVA : FinSys.cellsAsc
        (FinSys.validateReads (s.globalClock + 1) s.versionedData tx.readSet).2 :=
      FinSys.cellsAsc_validateReads tx.readSet s.versionedData hA
    have hVM : FinSys.maxTsLE
        (FinSys.validateReads (s.globalClock + 1) s.versionedData tx.readSet).2
        s.globalClock :=
      FinSys.maxTsLE_validateReads tx.readSet s.versionedData hM
    by_cases hr : (FinSys.validateReads (s.globalClock + 1) s.versionedData
        tx.readSet).1 = true
    · have hc : FinSys.commit s tx = (true,
          ⟨tx.writeSet.foldl
              (fun acc e => FinSys.appendVersion acc e.1 (s.globalClock + 1) e.2)
              (FinSys.validateReads (s.globalClock + 1) s.versionedData
                tx.readSet).2,
            s.globalClock + 1⟩) := by
        simp only [FinSys.commit]
        rw [if_pos hr]
      rw [hc]
      constructor
      · apply FinSys.cellsAsc_foldl_append tx.writeSet _ hVA ?_ hnd
        intro kv _ p hp
        exact Nat.lt_succ_of_le (FinSys.maxTsLE_lookupD hVM kv.1 p hp)
      · exact FinSys.maxTsLE_foldl_append (le_refl _) tx.writeSet _
          (FinSys.maxTsLE_mono hVM (Nat.le_succ _))
    · have hc : FinSys.commit s tx = (false,
          ⟨(FinSys.validateReads (s.globalClock + 1) s.versionedData
              tx.readSet).2,
            s.globalClock + 1⟩) := by
        simp only [FinSys.commit]
        rw [if_neg hr]
      rw [hc]
      exact ⟨hVA, FinSys.maxTsLE_mono hVM (Nat.le_succ _)⟩

/-- Claim C2, counterexample: starting from clock 1 with key 1 committed at
timestamps 0 and 1, a commit whose read set observed version 0 is rejected as
a conflict, yet the clock still advances from 1 to 2 while the store — and
hence the maximum committed timestamp, still 1 — is unchanged.  The clock is
therefore incremented on a conflicting attempt and no longer equals the
maximum committed timestamp. -/
theorem C2_counterexample :
    (FinSys.commit ⟨[(1, [(0, 5), (1, 7)])], 1⟩ ⟨[(1, (5, 0))], [(1, 99)], 0⟩).1
        = false ∧
    (FinSys.commit ⟨[(1, [(0, 5), (1, 7)])], 1⟩ ⟨[(1, (5, 0))], [(1, 99)], 0⟩).2
        = ⟨[(1, [(0, 5), (1, 7)])], 2⟩ := by
  exact ⟨rfl, rfl⟩

/-- Claim C2, amended: `endTimestamp = ++globalClock` runs before validation,
so the clock is incremented by exactly one on every commit attempt, whether
it succeeds or returns Conflict, and is never decremented.  Consequently the
clock always dominates every committed timestamp, and a successful commit
stamps every written key with a version at the new clock value — so the clock
equals the maximum committed timestamp as long as no attempt has failed. -/
theorem C2_clock_per_attempt (s : FinSys.FinState) (tx : FinSys.FinTx) :
    (FinSys.commit s tx).2.globalClock = s.globalClock + 1 ∧
    (FinSys.maxTsLE s.versionedData s.globalClock →
      FinSys.maxTsLE (FinSys.commit s tx).2.versionedData
        (FinSys.commit s tx).2.globalClock) ∧
    ((FinSys.commit s tx).1 = true → ∀ kv ∈ tx.writeSet,
      ∃ cell, lookupA (FinSys.commit s tx).2.versionedData kv.1 = some cell ∧
        ∃ p ∈ cell, p.1 = s.globalClock + 1) := by
  by_cases hr : (FinSys.validateReads (s.globalClock + 1) s.versionedData
      tx.readSet).1 = true
  · have hc : FinSys.commit s tx = (true,
        ⟨tx.writeSet.foldl
            (fun acc e => FinSys.appendVersion acc e.1 (s.globalClock + 1) e.2)
            (FinSys.validateReads (s.globalClock + 1) s.versionedData
              tx.readSet).2,
          s.globalClock + 1⟩) := by
      simp only [FinSys.commit]
      rw [if_pos hr]
    refine ⟨by rw [hc], ?_, ?_⟩
    · intro hM
      rw [hc]
      exact FinSys.maxTsLE_foldl_append (le_refl _) tx.writeSet _
        (FinSys.maxTsLE_mono
          (FinSys.maxTsLE_validateReads tx.readSet s.versionedData hM)
          (Nat.le_succ _))
    · intro _ kv hkv
      rw [hc]
      exact FinSys.foldl_appendVersion_written (s.globalClock + 1)
        tx.writeSet _ kv hkv
  · have hc : FinSys.commit s tx = (false,
        ⟨(FinSys.validateReads (s.globalClock + 1) s.versionedData
            tx.readSet).2,
          s.globalClock + 1⟩) := by
      simp only [FinSys.commit]
      rw [if_neg hr]
    refine ⟨by rw [hc], ?_, ?_⟩
    · intro hM
      rw [hc]
      exact FinSys.maxTsLE_mono
        (FinSys.maxTsLE_validateReads tx.readSet s.versionedData hM)
        (Nat.le_succ _)
    · intro hcontra
      rw [hc] at hcontra
      exact absurd hcontra (by simp)

/-- Claim C2, witness: the amended clock behavior evaluated at a successful
concrete commit. -/
theorem C2_witness :
    (FinSys.commit ⟨[(1, [(0, 5)])], 0⟩ ⟨[], [(1, 6)], 0⟩).2.globalClock
        = 0 + 1 ∧
    FinSys.maxTsLE
      (FinSys.commit ⟨[(1, [(0, 5)])], 0⟩ ⟨[], [(1, 6)], 0⟩).2.versionedData
      (FinSys.commit ⟨[(1, [(0, 5)])], 0⟩ ⟨[], [(1, 6)], 0⟩).2.globalClock ∧
    ∃ cell, lookupA
        (FinSys.commit ⟨[(1, [(0, 5)])], 0⟩ ⟨[], [(1, 6)], 0⟩).2.versionedData 1
          = some cell ∧ ∃ p ∈ cell, p.1 = 0 + 1 := by
  have h := C2_clock_per_attempt ⟨[(1, [(0, 5)])], 0⟩ ⟨[], [(1, 6)], 0⟩
  exact ⟨h.1, h.2.1 (by decide), h.2.2 rfl (1, 6) (by decide)⟩

/-- Claim C3: commit is atomic.  If `Transaction::commit` returns Conflict,
or the closure throws before commit, no write from the attempt's write buffer
reaches `versionedData` — the store is exactly as before the attempt (for any
attempt whose read-set keys exist in the store, as every read set produced by
`readBalance` does); likewise a failed `finalizeTransaction` of `STM.cpp`
leaves its `dataStore` untouched. -/
theorem C3_commit_atomic (s : FinSys.FinState)
    (logic : FinSys.FinState → FinSys.FinTx → Except Unit FinSys.FinTx)
    (hk : ∀ tx, logic s (FinSys.mkTx s) = .ok tx →
      ∀ e ∈ tx.readSet, (lookupA s.versionedData e.1).isSome) :
    ((FinSys.attempt s logic).1 = false →
      (FinSys.attempt s logic).2.versionedData = s.versionedData) ∧
    (∀ (ds : STM.MemStore) (mtx : STM.MemTx),
      (STM.finalizeTransaction ds mtx).1 = false →
      (STM.finalizeTransaction ds mtx).2 = ds) := by
  constructor
  · intro hfail
    unfold FinSys.attempt at hfail ⊢
    cases hl : logic s (FinSys.mkTx s) with
    | error e => rfl
    | ok tx =>
      rw [hl] at hfail
      replace hfail : (FinSys.commit s tx).1 = false := hfail
      show (FinSys.commit s tx).2.versionedData = s.versionedData
      have hid : (FinSys.validateReads (s.globalClock + 1) s.versionedData
          tx.readSet).2 = s.versionedData :=
        FinSys.validateReads_id tx.readSet s.versionedData
          (fun e he => hk tx hl e he)
      by_cases hr : (FinSys.validateReads (s.globalClock + 1) s.versionedData
          tx.readSet).1 = true
      · have hcontra : (FinSys.commit s tx).1 = true := by
          simp only [FinSys.commit]
          rw [if_pos hr]
        rw [hcontra] at hfail
        exact absurd hfail (by simp)
      · have hc : FinSys.commit s tx = (false,
            ⟨(FinSys.validateReads (s.globalClock + 1) s.versionedData
                tx.readSet).2,
              s.globalClock + 1⟩) := by
          simp only [FinSys.commit]
          rw [if_neg hr]
        rw [hc]
        exact hid
  · intro ds mtx hfail
    by_cases hv : STM.validateLog ds mtx = true
    · simp only [STM.finalizeTransaction] at hfail
      rw [if_pos hv] at hfail
      exact absurd hfail (by simp)
    · simp only [STM.finalizeTransaction]
      rw [if_neg hv]

/-- Claim C3, witness: atomicity evaluated for a throwing closure on a
concrete store. -/
theorem C3_witness :
    ((FinSys.attempt ⟨[(1, [(0, 5)])], 0⟩ (fun _ _ => .error ())).1 = false →
      (FinSys.attempt ⟨[(1, [(0, 5)])], 0⟩ (fun _ _ => .error ())).2.versionedData
        = [(1, [(0, 5)])]) ∧
    (∀ (ds : STM.MemStore) (mtx : STM.MemTx),
      (STM.finalizeTransaction ds mtx).1 = false →
      (STM.finalizeTransaction ds mtx).2 = ds) :=
  C3_commit_atomic ⟨[(1, [(0, 5)])], 0⟩ (fun _ _ => .error ())
    (fun _ h => nomatch h)

/-- Claim C6, counterexample: under `workerFunction`'s retry loop
(`maxAttempts = 10`), a closure that always throws is run 10 times for the
one submission — not exactly once — and the loop ends in a logged failure
rather than surfacing the domain error to the submitter. -/
theorem C6_counterexample :
    FinSys.runAttempts (fun _ _ => .error ()) 10 ⟨[], 0⟩
      = ⟨false, ⟨[], 0⟩, 10⟩ ∧ (10 : Nat) ≠ 1 := by
  exact ⟨rfl, by decide⟩

/-- Claim C6, amended: when the closure throws, the attempt is abandoned
without applying any writes — but the exception is treated as retryable: the
closure is re-run up to the full attempt budget (the shared state is exactly
as before throughout), the submission then terminates unsuccessfully, and the
domain error is logged, not surfaced unchanged to the submitter. -/
theorem C6_domain_error_retried
    (logic : FinSys.FinState → FinSys.FinTx → Except Unit FinSys.FinTx)
    (hthrow : ∀ s tx, logic s tx = .error ()) :
    ∀ (n : Nat) (s : FinSys.FinState),
      FinSys.runAttempts logic n s = ⟨false, s, n⟩ := by
  intro n
  induction n with
  | zero => intro s; rfl
  | succ n ih =>
    intro s
    have ha : FinSys.attempt s logic = (false, s) := by
      unfold FinSys.attempt
      rw [hthrow]
    simp only [FinSys.runAttempts, ha, ih]

/-- Claim C6, witness: the amended retry-on-domain-error behavior evaluated
for a concrete always-throwing closure. -/
theorem C6_witness :
    FinSys.runAttempts (fun _ _ => .error ()) 10 ⟨[(7, [(0, 3)])], 2⟩
      = ⟨false, ⟨[(7, [(0, 3)])], 2⟩, 10⟩ :=
  C6_domain_error_retried (fun _ _ => .error ()) (fun _ _ => rfl) 10 _

/-- Claim C7, counterexample: the retry loop of `advanced.cpp`'s
`executeTransaction` has no attempt budget.  Under an interfering worker that
commits its own increment of cell 100 between this transaction's read and its
commit, eleven rounds run the closure eleven times — more than either budget
(3 or 10) — with no success and no RetryExceeded ever surfaced. -/
theorem C7_counterexample :
    (Adv.execTask Adv.incLogic Adv.bumpCell 11 [(100, ⟨0, 0⟩)]).2 = 11 ∧
    (Adv.execTask Adv.incLogic Adv.bumpCell 11 [(100, ⟨0, 0⟩)]).1 = none ∧
    (10 : Nat) < 11 := by
  exact ⟨rfl, rfl, by decide⟩

/-- Claim C7, amended: the bounded variants respect their budgets — the
closure is run at most `fuel` times per submission both by `STM.cpp`'s
`executeTransaction` (3 at its call site, throwing RetryExceeded on
exhaustion) and by `workerFunction`'s loop (10 at its call site) — while the
`advanced.cpp` variant retries without bound. -/
theorem C7_attempt_budget :
    (∀ (logic : STM.MemStore → Except Unit STM.MemTx) (fuel : Nat)
        (ds : STM.MemStore),
      (STM.executeTransaction logic fuel ds).runs ≤ fuel) ∧
    (∀ (logic : FinSys.FinState → FinSys.FinTx → Except Unit FinSys.FinTx)
        (fuel : Nat) (s : FinSys.FinState),
      (FinSys.runAttempts logic fuel s).runs ≤ fuel) := by
  constructor
  · intro logic fuel
    induction fuel with
    | zero => intro ds; simp [STM.executeTransaction]
    | succ n ih =>
      intro ds
      cases hl : logic ds with
      | error e => simp [STM.executeTransaction, hl]
      | ok tx =>
        cases hf : STM.finalizeTransaction ds tx with
        | mk b ds1 =>
          cases b
          · have := ih ds1
            simp only [STM.executeTransaction, hl, hf]
            omega
          · simp [STM.executeTransaction, hl, hf]
  · intro logic fuel
    induction fuel with
    | zero => intro s; simp [FinSys.runAttempts]
    | succ n ih =>
      intro s
      cases ha : FinSys.attempt s logic with
      | mk b s1 =>
        cases b
        · have := ih s1
          simp only [FinSys.runAttempts, ha]
          omega
        · simp [FinSys.runAttempts, ha]

/-- Claim C10: a transaction attempt whose read set is empty never conflicts:
commit-time validation is vacuous in both the MVCC commit and the
`advanced.cpp` commit, so the write set is applied, `commit` returns true,
and the worker retry loop succeeds on its first attempt with one closure
run. -/
theorem C10_empty_readset_commits (s : FinSys.FinState)
    (ws : List (Nat × Int)) (st : Nat) (ds : Adv.AdvStore)
    (aws : List (Nat × Int))
    (logic : FinSys.FinState → FinSys.FinTx → Except Unit FinSys.FinTx)
    (n : Nat) (tx : FinSys.FinTx) :
    (FinSys.commit s ⟨[], ws, st⟩).1 = true ∧
    (∀ kv ∈ ws, ∃ cell,
      lookupA (FinSys.commit s ⟨[], ws, st⟩).2.versionedData kv.1 = some cell ∧
        ∃ p ∈ cell, p.1 = s.globalClock + 1) ∧
    (Adv.commit ds ⟨[], aws⟩).1 = true ∧
    (logic s (FinSys.mkTx s) = .ok tx → tx.readSet = [] →
      (FinSys.runAttempts logic (n + 1) s).success = true ∧
      (FinSys.runAttempts logic (n + 1) s).runs = 1) := by
  have hc : FinSys.commit s ⟨[], ws, st⟩ = (true,
      ⟨ws.foldl
          (fun acc e => FinSys.appendVersion acc e.1 (s.globalClock + 1) e.2)
          s.versionedData,
        s.globalClock + 1⟩) := by
    simp only [FinSys.commit]
    rw [if_pos]
    · rfl
    · rfl
  refine ⟨by rw [hc], ?_, ?_, ?_⟩
  · intro kv hkv
    rw [hc]
    exact FinSys.foldl_appendVersion_written (s.globalClock + 1) ws _ kv hkv
  · simp [Adv.commit]
  · intro hl hrs
    have hct : (FinSys.commit s tx).1 = true := by
      simp [FinSys.commit, hrs, FinSys.validateReads]
    have ha : FinSys.attempt s logic = FinSys.commit s tx := by
      unfold FinSys.attempt
      rw [hl]
    cases hcm : FinSys.commit s tx with
    | mk b s2 =>
      have hb : b = true := by rw [hcm] at hct; exact hct
      subst hb
      rw [hcm] at ha
      constructor
      · simp [FinSys.runAttempts, ha]
      · simp [FinSys.runAttempts, ha]

/-- Claim C10, witness: a write-only closure evaluated concretely — the
submission commits on its first attempt with a single closure run. -/
theorem C10_witness :
    (FinSys.runAttempts (fun _ _ => .ok ⟨[], [(1, 42)], 0⟩) 1 ⟨[], 0⟩).success
        = true ∧
    (FinSys.runAttempts (fun _ _ => .ok ⟨[], [(1, 42)], 0⟩) 1 ⟨[], 0⟩).runs
        = 1 := by
  have h := C10_empty_readset_commits ⟨[], 0⟩ [] 0 [] []
    (fun _ _ => .ok ⟨[], [(1, 42)], 0⟩) 0 ⟨[], [(1, 42)], 0⟩
  exact h.2.2.2 rfl rfl

/-- Claim C4: for a key not shadowed by the write buffer and a store whose
cells are strictly ascending (invariant I1), `readBalance` at the attempt's
start timestamp returns the value of the newest version whose timestamp is
`≤ startTimestamp` — recording its timestamp in the read set — and fails when
the key is absent (`accountNotFound`) or when every version is newer than the
timestamp (`noValidVersion`). -/
theorem C4_read_at (s : FinSys.FinState) (tx : FinSys.FinTx) (k : Nat)
    (hs : FinSys.cellsAsc s.versionedData)
    (hw : lookupA tx.writeSet k = none) :
    (lookupA s.versionedData k = none →
      FinSys.readBalance s tx k = .error .accountNotFound) ∧
    (∀ versions, lookupA s.versionedData k = some versions →
      ((∀ p ∈ versions, tx.startTimestamp < p.1) →
        FinSys.readBalance s tx k = .error .noValidVersion) ∧
      (∀ p0 ∈ versions, p0.1 ≤ tx.startTimestamp →
        ∃ q ∈ versions, q.1 ≤ tx.startTimestamp ∧
          (∀ r ∈ versions, r.1 ≤ tx.startTimestamp → r.1 ≤ q.1) ∧
          FinSys.readBalance s tx k
            = .ok (q.2, { tx with
                readSet := insertA tx.readSet k (q.2, q.1) }))) := by
  constructor
  · intro hnone
    simp [FinSys.readBalance, hw, hnone]
  · intro versions hsome
    have hasc : FinSys.strictAsc versions := by
      simpa using hs (k, versions) (lookupA_mem hsome)
    constructor
    · intro hall
      have hfn : FinSys.findNewestLE versions tx.startTimestamp = none := by
        unfold FinSys.findNewestLE
        apply List.find?_eq_none.mpr
        intro x hx
        have := hall x (List.mem_reverse.mp hx)
        simp
        omega
      simp [FinSys.readBalance, hw, hsome, hfn]
    · intro p0 hp0 hp0le
      obtain ⟨q, hq⟩ : ∃ q, FinSys.findNewestLE versions tx.startTimestamp
          = some q := by
        cases hfn : FinSys.findNewestLE versions tx.startTimestamp with
        | some q => exact ⟨q, rfl⟩
        | none =>
          have := FinSys.findNewestLE_none hfn p0 hp0
          omega
      obtain ⟨hqmem, hqle, hqmax⟩ := FinSys.findNewestLE_spec hasc hq
      exact ⟨q, hqmem, hqle, hqmax,
        by simp [FinSys.readBalance, hw, hsome, hq]⟩

/-- Claim C4, witness: scenario S6 — with key 1 committed through values
0, 1, 2, 3 at timestamps 1..4, reading at start timestamp 2 yields value 1
(the version committed at timestamp 2). -/
theorem C4_witness :
    ∃ q ∈ ([(1, 0), (2, 1), (3, 2), (4, 3)] : List FinSys.Version),
      q.1 ≤ 2 ∧
      (∀ r ∈ ([(1, 0), (2, 1), (3, 2), (4, 3)] : List FinSys.Version),
        r.1 ≤ 2 → r.1 ≤ q.1) ∧
      FinSys.readBalance ⟨[(1, [(1, 0), (2, 1), (3, 2), (4, 3)])], 4⟩
          ⟨[], [], 2⟩ 1
        = .ok (q.2, { (⟨[], [], 2⟩ : FinSys.FinTx) with
            readSet := insertA [] 1 (q.2, q.1) }) := by
  have h := C4_read_at ⟨[(1, [(1, 0), (2, 1), (3, 2), (4, 3)])], 4⟩
    ⟨[], [], 2⟩ 1 (by decide) rfl
  exact (h.2 [(1, 0), (2, 1), (3, 2), (4, 3)] rfl).2 (2, 1) (by decide)
    (by decide)

/-- Claim C1, counterexample: in `advanced.cpp`'s `Transaction::read` (and
the identical `fetch` of the mod-count variants), a second read of the same
key within one attempt consults the store afresh instead of re-returning the
recorded value: after a first read of cell 100 returns 0, a concurrent commit
stores 9, and the second read of the same attempt returns 9 ≠ 0, overwriting
the read-set entry. -/
theorem C1_counterexample :
    Adv.read [(100, ⟨0, 0⟩)] ⟨[], []⟩ 100
        = .ok (0, ⟨[(100, (0, 0))], []⟩) ∧
    (Adv.commit [(100, ⟨0, 0⟩)] ⟨[], [(100, 9)]⟩).2 = [(100, ⟨9, 1⟩)] ∧
    Adv.read [(100, ⟨9, 1⟩)] ⟨[(100, (0, 0))], []⟩ 100
        = .ok (9, ⟨[(100, (9, 1))], []⟩) ∧
    (9 : Int) ≠ 0 := by
  exact ⟨rfl, rfl, rfl, by decide⟩

/-- Claim C1, amended: read stability holds in the MVCC variant, and by
snapshotting rather than by re-returning the recorded value: if `readBalance`
returned `v` for key `k` and the start timestamp is no newer than the global
clock, then after any other transaction's commit the same attempt's second
`readBalance` of `k` again consults the store, finds the same version (every
newly committed version is stamped above the start timestamp), and returns
the same `v` with the transaction context unchanged.  In the mod-count
variants a second read can observe a concurrently committed value. -/
theorem C1_snapshot_stable (s : FinSys.FinState) (tx tx2 : FinSys.FinTx)
    (k : Nat) (v : Int) (txr : FinSys.FinTx)
    (h1 : FinSys.readBalance s tx k = .ok (v, txr))
    (h2 : tx.startTimestamp ≤ s.globalClock) :
    FinSys.readBalance (FinSys.commit s tx2).2 txr k = .ok (v, txr) := by
  cases hw : lookupA tx.writeSet k with
  | some w =>
    have hred : FinSys.readBalance s tx k = .ok (w, tx) := by
      simp [FinSys.readBalance, hw]
    rw [hred] at h1
    have h3 := Except.ok.inj h1
    have hv : w = v := congrArg Prod.fst h3
    have htxr : tx = txr := congrArg Prod.snd h3
    subst hv
    subst htxr
    simp [FinSys.readBalance, hw]
  | none =>
    cases hvd : lookupA s.versionedData k with
    | none =>
      have hred : FinSys.readBalance s tx k = .error .accountNotFound := by
        simp [FinSys.readBalance, hw, hvd]
      rw [hred] at h1
      exact Except.noConfusion h1
    | some versions =>
      cases hfn : FinSys.findNewestLE versions tx.startTimestamp with
      | none =>
        have hred : FinSys.readBalance s tx k = .error .noValidVersion := by
          simp [FinSys.readBalance, hw, hvd, hfn]
        rw [hred] at h1
        exact Except.noConfusion h1
      | some q =>
        have hred : FinSys.readBalance s tx k
            = .ok (q.2, { tx with
                readSet := insertA tx.readSet k (q.2, q.1) }) := by
          simp [FinSys.readBalance, hw, hvd, hfn]
        rw [hred] at h1
        have h3 := Except.ok.inj h1
        have hv : q.2 = v := congrArg Prod.fst h3
        have htxr : { tx with readSet := insertA tx.readSet k (q.2, q.1) }
            = txr := congrArg Prod.snd h3
        subst hv
        subst htxr
        have hkey : ∃ extra,
            lookupA (FinSys.commit s tx2).2.versionedData k
              = some (versions ++ extra) ∧
            ∀ p ∈ extra, tx.startTimestamp < p.1 := by
          have hv1 : lookupA (FinSys.validateReads (s.globalClock + 1)
              s.versionedData tx2.readSet).2 k = some versions :=
            FinSys.validateReads_lookup tx2.readSet s.versionedData k
              versions hvd
          by_cases hr : (FinSys.validateReads (s.globalClock + 1)
              s.versionedData tx2.readSet).1 = true
          · have hc : FinSys.commit s tx2 = (true,
                ⟨tx2.writeSet.foldl
                    (fun acc e =>
                      FinSys.appendVersion acc e.1 (s.globalClock + 1) e.2)
                    (FinSys.validateReads (s.globalClock + 1) s.versionedData
                      tx2.readSet).2,
                  s.globalClock + 1⟩) := by
              simp only [FinSys.commit]
              rw [if_pos hr]
            rw [hc]
            obtain ⟨extra, he1, he2⟩ :=
              FinSys.foldl_appendVersion_exists (s.globalClock + 1)
                tx2.writeSet _ k versions hv1
            refine ⟨extra, he1, ?_⟩
            intro p hp
            have := he2 p hp
            omega
          · have hc : FinSys.commit s tx2 = (false,
                ⟨(FinSys.validateReads (s.globalClock + 1) s.versionedData
                    tx2.readSet).2,
                  s.globalClock + 1⟩) := by
              simp only [FinSys.commit]
              rw [if_neg hr]
            rw [hc]
            exact ⟨[], by simpa using hv1, by simp⟩
        obtain ⟨extra, hke, hgt⟩ := hkey
        have hfn2 : FinSys.findNewestLE (versions ++ extra) tx.startTimestamp
            = some q := by
          unfold FinSys.findNewestLE
          rw [List.reverse_append]
          rw [find?_append_none _ extra.reverse versions.reverse ?_]
          · exact hfn
          · intro x hx
            have := hgt x (List.mem_reverse.mp hx)
            simp
            omega
        simp [FinSys.readBalance, hw, hke, hfn2, insertA_idem]

/-- Claim C1, witness: the amended MVCC read stability evaluated concretely —
after reading 5 from account 1, an interleaved commit writing 9 does not
change what the attempt's second read returns. -/
theorem C1_witness :
    FinSys.readBalance (FinSys.commit ⟨[(1, [(0, 5)])], 0⟩ ⟨[], [(1, 9)], 0⟩).2
        ⟨[(1, (5, 0))], [], 0⟩ 1
      = .ok (5, ⟨[(1, (5, 0))], [], 0⟩) := by
  exact C1_snapshot_stable ⟨[(1, [(0, 5)])], 0⟩ ⟨[], [], 0⟩ ⟨[], [(1, 9)], 0⟩
    1 5 ⟨[(1, (5, 0))], [], 0⟩ rfl (by decide)

/-- Claim C9, witness: the amended invariant preservation evaluated for a
fresh-key `createAccount` and for a successful conflicting-free commit. -/
theorem C9_witness :
    FinSys.StoreInv (FinSys.createAccount ⟨[(1, [(0, 5)])], 0⟩ 2 9) ∧
    FinSys.StoreInv
      (FinSys.commit ⟨[(1, [(0, 5)])], 0⟩ ⟨[(1, (5, 0))], [(1, 6)], 0⟩).2 := by
  have h := C9_version_monotonic ⟨[(1, [(0, 5)])], 0⟩ 2 9 ⟨[(1, (5, 0))], [(1, 6)], 0⟩
  exact ⟨h.1 (by decide) (by decide), h.2 (by decide) (by decide)⟩

end FinVerify
